import Mathlib

/-
Verification of the PlasmodiumClassification training core against its
natural-language specification.

The definitions below are a shallow embedding of the Python sources:
  * `src/data_loader.py`  — label remapping, class-weight computation,
    effective sampler configuration (with an explicit heap to model
    Python object identity and in-place dict mutation);
  * `src/training.py`     — the per-epoch subset-loader construction,
    the per-batch NaN/Inf guard statistics, the validation-phase
    early-stopping / augmenter-gating state machine, and the history
    table padding;
  * `src/regularizers.py` — the MaxNorm-via-PGD projection.

Machine floats are modelled by exact rationals; external library
primitives (torch.sqrt, torch.linalg.norm) are passed as explicit
function parameters where their numeric value is irrelevant to the
property at hand.  All definitions are computable so that concrete
runs of the embedded code can be evaluated inside proofs.
-/

namespace PlasmodiumSpec

/-! ### Label remapping (`AnnotationDataset._apply_class_remapping`,
`data_loader.py` lines 157-180)

A Python dict is an association list whose first binding of a key wins;
`remapGet m l` is `mapping.get(label, label)`. -/

def remapGet (mapping : List (Int × Int)) (label : Int) : Int :=
  match mapping.find? (fun p => p.1 = label) with
  | some p => p.2
  | none => label

/-- Lines 170-176 of `data_loader.py`: every sample's label is replaced by
`mapping.get(label, label)`; paths are untouched. -/
def applyClassRemapping (mapping : List (Int × Int)) (samples : List (String × Int)) :
    List (String × Int) :=
  samples.map (fun s => (s.1, remapGet mapping s.2))

/-- Label multiset tracked by the remapping step (`new_original_labels`,
line 174). -/
def remappedLabelSet (mapping : List (Int × Int)) (samples : List (String × Int)) : List Int :=
  (applyClassRemapping mapping samples).map (fun s => s.2)

/-! ### Class weights (`compute_class_weights_from_dataset`,
`data_loader.py` lines 335-408) -/

/-- Count of class `c` in the targets (`Counter(targets)[c]`). -/
def targetCount (targets : List Nat) (c : Nat) : Nat :=
  targets.count c

/-- Count after the missing-class fix-up (lines 374-377): a class of
`range(num_classes)` that does not occur gets an assumed count of 1. -/
def adjustedCount (targets : List Nat) (c : Nat) : Nat :=
  if targets.count c = 0 then 1 else targets.count c

/-- `total_samples = sum(class_counts.values())` (line 383), taken after
the missing-class fix-up: the length of the target list plus one for
each class in `range(num_classes)` that never occurs. -/
def totalAdjusted (targets : List Nat) (numClasses : Nat) : Nat :=
  targets.length + ((List.range numClasses).filter (fun c => targets.count c = 0)).length

/-- Pre-sqrt, pre-clamp weights (lines 380-395).  `inverse` divides the
adjusted total by each adjusted count; `balanced` divides `len(targets)`
by `num_classes` times each adjusted count; anything else raises
`ValueError`, modelled as `Except.error`. -/
def rawWeights (method : String) (targets : List Nat) (numClasses : Nat) :
    Except String (List ℚ) :=
  if method = "inverse" then
    Except.ok ((List.range numClasses).map
      (fun c => (totalAdjusted targets numClasses : ℚ) / (adjustedCount targets c : ℚ)))
  else if method = "balanced" then
    Except.ok ((List.range numClasses).map
      (fun c => (targets.length : ℚ) / ((numClasses : ℚ) * (adjustedCount targets c : ℚ))))
  else
    Except.error ("Unsupported weight_calculation method: " ++ method)

/-- `torch.clamp(x, min=lo, max=hi)`: the maximum with `lo` is applied
first, then the minimum with `hi` (so `hi` wins when `lo > hi`). -/
def clampQ (x lo hi : ℚ) : ℚ :=
  min (max x lo) hi

/-- Full weight computation (lines 357-408): raw weights, then the
optional elementwise square root (`sqrtFn` stands for `torch.sqrt`,
an external numeric primitive), then the clamp as the final step. -/
def computeClassWeights (sqrtFn : ℚ → ℚ) (method : String) (targets : List Nat)
    (numClasses : Nat) (applySqrt : Bool) (minWeight maxWeight : ℚ) :
    Except String (List ℚ) :=
  match rawWeights method targets numClasses with
  | Except.error e => Except.error e
  | Except.ok ws =>
      let ws1 := if applySqrt then ws.map sqrtFn else ws
      Except.ok (ws1.map (fun w => clampQ w minWeight maxWeight))

/-! ### Effective sampler configuration (`get_effective_sampler_config`,
`data_loader.py` lines 469-490)

Python dicts are mutable heap objects; to state object-identity facts
(`.copy()` returns a fresh dict, the copy is shallow) the embedding uses
an explicit store: a dict value is an association list, nested mutable
values are represented by heap references. -/

inductive PyVal where
  | intV (n : Int)
  | strV (s : String)
  | boolV (b : Bool)
  | refV (r : Nat)
deriving DecidableEq

abbrev Dict := List (String × PyVal)

/-- Python `d[k]` lookup returning `none` when the key is absent. -/
def dictGet (d : Dict) (k : String) : Option PyVal :=
  (d.find? (fun p => p.1 = k)).map (fun p => p.2)

/-- Python `d[k] = v`: replace the binding in place when the key exists,
append a new binding otherwise (dict insertion order semantics). -/
def dictSet (d : Dict) (k : String) (v : PyVal) : Dict :=
  if d.any (fun p => p.1 = k) then
    d.map (fun p => if p.1 = k then (k, v) else p)
  else d ++ [(k, v)]

structure Store where
  heap : List Dict
deriving DecidableEq

/-- Allocate a fresh dict object; the new reference is the old heap size,
so it is distinct from every existing reference. -/
def allocDict (st : Store) (d : Dict) : Store × Nat :=
  (⟨st.heap ++ [d]⟩, st.heap.length)

def readRef (st : Store) (r : Nat) : Dict := st.heap.getD r []

def writeRef (st : Store) (r : Nat) (d : Dict) : Store := ⟨st.heap.set r d⟩

/-- Lines 480-490 of `data_loader.py`: with no phase config return
`main_config.copy()` (a fresh shallow copy); otherwise copy and then set
each phase key on the copy in place. -/
def getEffectiveSamplerConfig (st : Store) (mainRef : Nat) (phase : Option Dict) :
    Store × Nat :=
  match phase with
  | none => allocDict st (readRef st mainRef)
  | some p =>
      let a := allocDict st (readRef st mainRef)
      (p.foldl (fun s kv => writeRef s a.2 (dictSet (readRef s a.2) kv.1 kv.2)) a.1, a.2)

/-! ### Epoch-specific training loader (`train_model`,
`training.py` lines 117-136) -/

structure LoaderSettings where
  batchSize : Nat
  numWorkers : Nat
  pinMemory : Bool
  persistentWorkers : Bool
  collateId : Nat
deriving DecidableEq

/-- A loader is its settings plus its sampling behaviour: `subsetIndices
= some l` means a `SubsetRandomSampler` over the index list `l`; `none`
means the caller-supplied loader is used unchanged. -/
structure EpochLoader where
  settings : LoaderSettings
  subsetIndices : Option (List Nat)
  shuffleFlag : Bool
deriving DecidableEq

/-- `num_epoch_samples = math.ceil(num_total_train_samples * train_ratio)`
(line 119). -/
def numEpochSamples (numTotal : Nat) (ratio : ℚ) : Nat :=
  (⌈(numTotal : ℚ) * ratio⌉).toNat

/-- Lines 117-136 of `training.py`: when `train_ratio < 1.0` the epoch
loader is rebuilt over the first `num_epoch_samples` entries of a fresh
`torch.randperm(N)` (the `randperm` argument), wrapped in a
`SubsetRandomSampler`, with `shuffle=False` and the caller loader's
batch size, worker count, pin-memory, collate and persistent-workers
settings; otherwise the original loader is reused. -/
def makeEpochTrainLoader (orig : LoaderSettings) (origShuffle : Bool)
    (numTotal : Nat) (ratio : ℚ) (randperm : List Nat) : EpochLoader :=
  if ratio < 1 then
    { settings := orig,
      subsetIndices := some (randperm.take (numEpochSamples numTotal ratio)),
      shuffleFlag := false }
  else
    { settings := orig, subsetIndices := none, shuffleFlag := origShuffle }

/-- Iteration order of torch's `SubsetRandomSampler` (an external loader
collaborator): it yields `indices[i]` for `i` drawn from a fresh
permutation of `range(len(indices))` at load time — `loadPerm` is that
load-time permutation. -/
def subsetRandomSamplerOrder (indices : List Nat) (loadPerm : List Nat) : List Nat :=
  loadPerm.map (fun i => indices.getD i 0)

/-! ### Early stopping and augmenter gating (`train_model` /
`train_classifier_only`, `training.py` lines 345-373 and 754-778) -/

/-- State carried across validation-phase ends: the no-improvement
counter, the augmenter's `enabled` flag, and an instrumentation counter
of how many times the flag has been written to `False`. -/
structure AugTrainState where
  epochsNoImprove : Nat
  mixupEnabled : Bool
  disableEvents : Nat
deriving DecidableEq

/-- One epoch's validation-end bookkeeping (lines 345-366): `none` means
the epoch produced no validation decision (no val loader or no valid
batches, where the code `continue`s before this block); on improvement
the counter resets and the augmenter is re-enabled; on non-improvement
the counter increments and, exactly when it equals `patience - 5`
(computed over the integers, as in Python), the augmenter is disabled. -/
def valPhaseStep (patience : Nat) (s : AugTrainState) : Option Bool → AugTrainState
  | none => s
  | some improved =>
    if improved then
      { epochsNoImprove := 0, mixupEnabled := true, disableEvents := s.disableEvents }
    else
      let c := s.epochsNoImprove + 1
      if (c : Int) = (patience : Int) - 5 then
        { epochsNoImprove := c, mixupEnabled := false, disableEvents := s.disableEvents + 1 }
      else
        { epochsNoImprove := c, mixupEnabled := s.mixupEnabled, disableEvents := s.disableEvents }

/-- The epoch loop's early-stopping skeleton (lines 371-373): after each
epoch's validation bookkeeping the loop breaks when
`epochs_no_improve >= patience`.  The result is the trace of states
after each executed epoch, truncated at the early stop. -/
def runValEpochs (patience : Nat) : AugTrainState → List (Option Bool) → List AugTrainState
  | _, [] => []
  | s, o :: rest =>
    let s2 := valPhaseStep patience s o
    if patience ≤ s2.epochsNoImprove then [s2]
    else s2 :: runValEpochs patience s2 rest

/-! ### Per-batch NaN/Inf guard (`train_model`, `training.py`
lines 167-259) -/

/-- The data of one batch as far as the loop's statistics are concerned:
whether the loaded tensors were empty, the batch size `inputs.size(0)`,
whether the scalar loss was finite, and its value when finite. -/
structure Batch where
  emptyData : Bool
  size : Nat
  lossFinite : Bool
  lossVal : ℚ
deriving DecidableEq

/-- Accumulated statistics of a phase: `running_loss`,
`num_processed_samples`, `batch_count`, `nan_inf_counter`, and an
instrumentation count of optimizer steps taken. -/
structure PhaseStats where
  runningLoss : ℚ
  numProcessedSamples : Nat
  batchCount : Nat
  nanInfCounter : Nat
  optimizerSteps : Nat
deriving DecidableEq

/-- `max_nan_inf_tolerance = 5` (line 50); exceeding it only triggers a
louder warning in the source, never an abort. -/
def maxNanInfTolerance : Nat := 5

/-- One iteration of the batch loop (lines 167-259): an empty batch is
skipped entirely; a non-finite loss increments only the NaN/Inf counter
and `continue`s before the backward pass, the optimizer step, and the
statistics block; otherwise the statistics accumulate and (in the train
phase) the optimizer steps. -/
def processBatch (isTrain : Bool) (s : PhaseStats) (b : Batch) : PhaseStats :=
  if b.emptyData then s
  else if b.lossFinite = false then
    { s with nanInfCounter := s.nanInfCounter + 1 }
  else
    { runningLoss := s.runningLoss + b.lossVal * (b.size : ℚ),
      numProcessedSamples := s.numProcessedSamples + b.size,
      batchCount := s.batchCount + 1,
      nanInfCounter := s.nanInfCounter,
      optimizerSteps := s.optimizerSteps + (if isTrain then 1 else 0) }

/-- A whole phase processes its batches in order with no abort path. -/
def runPhase (isTrain : Bool) (s : PhaseStats) (bs : List Batch) : PhaseStats :=
  bs.foldl (processBatch isTrain) s

/-- A batch that contributes to the statistics: non-empty with finite loss. -/
def isValidBatch (b : Batch) : Bool :=
  !b.emptyData && b.lossFinite

end PlasmodiumSpec
namespace PlasmodiumSpec

/-! ### MaxNorm via projected gradient descent (`MaxNorm_via_PGD`,
`regularizers.py` lines 8-51)

The classifier layer is a list of neurons, each a flattened weight
vector of rationals.  `normFn` stands for the external primitive
`torch.linalg.norm(-, ord=LpNorm, dim=1)` applied to one neuron (for
one-element neurons every Lp norm equals the absolute value). -/

def listMinQ (l : List ℚ) : ℚ := l.foldl min (l.headD 0)

def listMaxQ (l : List ℚ) : ℚ := l.foldl max (l.headD 0)

/-- State of `MaxNorm_via_PGD`: the threshold ratio `thresh`, the
exponent `tau`, and the cached `perLayerThresh` list. -/
structure MaxNormPGDState where
  thresh : ℚ
  tau : Nat
  perLayerThresh : List ℚ
deriving DecidableEq

/-- `setPerLayerThresh` (lines 16-29) for the single targeted layer:
threshold = min norm + thresh * (max norm - min norm), cached. -/
def setPerLayerThresh (normFn : List ℚ → ℚ) (st : MaxNormPGDState)
    (layer : List (List ℚ)) : MaxNormPGDState :=
  let norms := layer.map normFn
  { st with perLayerThresh :=
      [listMinQ norms + st.thresh * (listMaxQ norms - listMinQ norms)] }

/-- One neuron of `PGD` (lines 39-51): `neuronNorm = norm ** tau`
(line 40); a neuron with `neuronNorm > thresh` (line 44) is rescaled by
`thresh / neuronNorm ** tau` (line 46) — note the second `** tau` is
applied to a quantity that is already `norm ** tau`. -/
def pgdNeuron (normFn : List ℚ → ℚ) (tau : Nat) (thr : ℚ) (v : List ℚ) : List ℚ :=
  let np := (normFn v) ^ tau
  if thr < np then v.map (fun x => (thr / np ^ tau) * x) else v

def pgdLayer (normFn : List ℚ → ℚ) (tau : Nat) (thr : ℚ)
    (layer : List (List ℚ)) : List (List ℚ) :=
  layer.map (pgdNeuron normFn tau thr)

/-- `PGD` (lines 31-51): lazily compute the per-layer threshold when the
cache is empty, then project every neuron of the classifier layer
against the cached threshold. -/
def maxNormPGD (normFn : List ℚ → ℚ) (st : MaxNormPGDState)
    (layer : List (List ℚ)) : MaxNormPGDState × List (List ℚ) :=
  let st2 := if st.perLayerThresh.isEmpty then setPerLayerThresh normFn st layer else st
  (st2, pgdLayer normFn st2.tau (st2.perLayerThresh.headD 0) layer)

/-- Modelled from the spec: section 4.3 says `project(layer)` rescales an
over-threshold neuron by `threshold / norm^tau`.  The source instead
divides by `(norm^tau)^tau` (the `**self.tau` on line 46 is applied to
`neuronNorm_curparam`, which is already `norm**tau` from line 40); this
definition follows the spec's words for comparison with `pgdNeuron`. -/
def specPgdNeuron (normFn : List ℚ → ℚ) (tau : Nat) (thr : ℚ) (v : List ℚ) : List ℚ :=
  let np := (normFn v) ^ tau
  if thr < np then v.map (fun x => (thr / np) * x) else v

/-- Sum of absolute values; on one-element vectors this coincides with
the L2 norm `torch.linalg.norm` computes in the source. -/
def absSumNorm (v : List ℚ) : ℚ := (v.map (fun x => |x|)).sum

/-! ### History table (`train_model`, `training.py` lines 58-65, 114-115,
265-310 and 379-388)

A cell of the table is either a real value or the `float('nan')`
padding/placeholder. -/

inductive Cell where
  | nanCell : Cell
  | numCell : ℚ → Cell
deriving DecidableEq

/-- The history dict of line 58: one field per key, in source order
`epoch`, `train_loss`, `train_acc_macro`, `train_acc_weighted`,
`val_loss`, `val_acc_macro`, `val_acc_weighted`, `val_precision_macro`,
`val_recall_macro`, `val_f1_macro`, `val_precision_weighted`,
`val_recall_weighted`, `val_f1_weighted`, `lr`. -/
structure History where
  epochCol : List Cell
  trainLoss : List Cell
  trainAccMac : List Cell
  trainAccWgt : List Cell
  valLoss : List Cell
  valAccMac : List Cell
  valAccWgt : List Cell
  valPrecMac : List Cell
  valRecMac : List Cell
  valF1Mac : List Cell
  valPrecWgt : List Cell
  valRecWgt : List Cell
  valF1Wgt : List Cell
  lrCol : List Cell

def initHistory : History := ⟨[], [], [], [], [], [], [], [], [], [], [], [], [], []⟩

/-- What one epoch contributes to the history: the learning rate logged
at epoch start, the train-phase metrics (`none` when the phase had no
valid batches, which the source records as NaNs), and likewise the nine
validation metrics. -/
structure EpochData where
  lrVal : ℚ
  trainMetrics : Option (ℚ × ℚ × ℚ)
  valMetrics : Option (ℚ × ℚ × ℚ × ℚ × ℚ × ℚ × ℚ × ℚ × ℚ)

/-- Train-phase appends (lines 265-302): NaNs when no valid batch was
processed, the computed values otherwise. -/
def appendTrainCols (h : History) (m : Option (ℚ × ℚ × ℚ)) : History :=
  match m with
  | none =>
      { h with trainLoss := h.trainLoss ++ [Cell.nanCell],
               trainAccMac := h.trainAccMac ++ [Cell.nanCell],
               trainAccWgt := h.trainAccWgt ++ [Cell.nanCell] }
  | some (l, am, aw) =>
      { h with trainLoss := h.trainLoss ++ [Cell.numCell l],
               trainAccMac := h.trainAccMac ++ [Cell.numCell am],
               trainAccWgt := h.trainAccWgt ++ [Cell.numCell aw] }

/-- Validation-phase appends (lines 265-310): all nine validation
columns receive either NaN or a value. -/
def appendValCols (h : History)
    (m : Option (ℚ × ℚ × ℚ × ℚ × ℚ × ℚ × ℚ × ℚ × ℚ)) : History :=
  match m with
  | none =>
      { h with valLoss := h.valLoss ++ [Cell.nanCell],
               valAccMac := h.valAccMac ++ [Cell.nanCell],
               valAccWgt := h.valAccWgt ++ [Cell.nanCell],
               valPrecMac := h.valPrecMac ++ [Cell.nanCell],
               valRecMac := h.valRecMac ++ [Cell.nanCell],
               valF1Mac := h.valF1Mac ++ [Cell.nanCell],
               valPrecWgt := h.valPrecWgt ++ [Cell.nanCell],
               valRecWgt := h.valRecWgt ++ [Cell.nanCell],
               valF1Wgt := h.valF1Wgt ++ [Cell.nanCell] }
  | some (l, am, aw, pm, rm, fm, pw, rw2, fw) =>
      { h with valLoss := h.valLoss ++ [Cell.numCell l],
               valAccMac := h.valAccMac ++ [Cell.numCell am],
               valAccWgt := h.valAccWgt ++ [Cell.numCell aw],
               valPrecMac := h.valPrecMac ++ [Cell.numCell pm],
               valRecMac := h.valRecMac ++ [Cell.numCell rm],
               valF1Mac := h.valF1Mac ++ [Cell.numCell fm],
               valPrecWgt := h.valPrecWgt ++ [Cell.numCell pw],
               valRecWgt := h.valRecWgt ++ [Cell.numCell rw2],
               valF1Wgt := h.valF1Wgt ++ [Cell.numCell fw] }

/-- One epoch of history recording: `epoch` and `lr` are appended at
epoch start (lines 114-115), the train columns always receive an entry,
and the validation columns receive an entry only when a validation
loader exists (`hasVal`) — with no val loader the phase `continue`s
before any append (line 146-148). -/
def recordEpoch (hasVal : Bool) (i : Nat) (e : EpochData) (h : History) : History :=
  let h1 := { h with epochCol := h.epochCol ++ [Cell.numCell ((i : ℚ) + 1)],
                     lrCol := h.lrCol ++ [Cell.numCell e.lrVal] }
  let h2 := appendTrainCols h1 e.trainMetrics
  if hasVal then appendValCols h2 e.valMetrics else h2

/-- The whole run appends one `EpochData` per executed epoch (the list
`es` is exactly the executed epochs, so early stopping only shortens
it). -/
def runHistory (hasVal : Bool) : Nat → List EpochData → History → History
  | _, [], h => h
  | i, e :: rest, h => runHistory hasVal (i + 1) rest (recordEpoch hasVal i e h)

/-- Python's `sub in s` substring test, used by the padding-value choice
on line 383 (working over the character lists so the predicate is
kernel-computable). -/
def containsSub (s pat : String) : Bool :=
  (List.range (s.data.length + 1)).any (fun i => pat.data.isPrefixOf (s.data.drop i))

/-- Line 383: a column is a metric column when its key contains `loss`,
`acc`, `f1`, `precision` or `recall`. -/
def isMetricKey (k : String) : Bool :=
  containsSub k "loss" || containsSub k "acc" || containsSub k "f1"
    || containsSub k "precision" || containsSub k "recall"

/-- Padding value for a column (line 383): NaN for metric columns, `-1`
otherwise. -/
def padCellFor (k : String) : Cell :=
  if isMetricKey k then Cell.nanCell else Cell.numCell (-1)

/-- Lines 381-384: a short column is extended at the end to the target
length with its padding value; columns are never truncated. -/
def padColumn (k : String) (n : Nat) (v : List Cell) : List Cell :=
  v ++ List.replicate (n - v.length) (padCellFor k)

/-- `max_len = max(len(v) for v in history.values())` (line 380). -/
def maxColLen (h : History) : Nat :=
  h.epochCol.length ⊔ (h.trainLoss.length ⊔ (h.trainAccMac.length ⊔ (h.trainAccWgt.length ⊔
    (h.valLoss.length ⊔ (h.valAccMac.length ⊔ (h.valAccWgt.length ⊔ (h.valPrecMac.length ⊔
    (h.valRecMac.length ⊔ (h.valF1Mac.length ⊔ (h.valPrecWgt.length ⊔ (h.valRecWgt.length ⊔
    (h.valF1Wgt.length ⊔ h.lrCol.length))))))))))))

/-- The end-of-run padding pass (lines 379-384), applied per column with
the column's dict key. -/
def padHistory (h : History) : History :=
  let n := maxColLen h
  { epochCol := padColumn "epoch" n h.epochCol,
    trainLoss := padColumn "train_loss" n h.trainLoss,
    trainAccMac := padColumn "train_acc_macro" n h.trainAccMac,
    trainAccWgt := padColumn "train_acc_weighted" n h.trainAccWgt,
    valLoss := padColumn "val_loss" n h.valLoss,
    valAccMac := padColumn "val_acc_macro" n h.valAccMac,
    valAccWgt := padColumn "val_acc_weighted" n h.valAccWgt,
    valPrecMac := padColumn "val_precision_macro" n h.valPrecMac,
    valRecMac := padColumn "val_recall_macro" n h.valRecMac,
    valF1Mac := padColumn "val_f1_macro" n h.valF1Mac,
    valPrecWgt := padColumn "val_precision_weighted" n h.valPrecWgt,
    valRecWgt := padColumn "val_recall_weighted" n h.valRecWgt,
    valF1Wgt := padColumn "val_f1_weighted" n h.valF1Wgt,
    lrCol := padColumn "lr" n h.lrCol }

/-- History table at the end of a run of the executed epochs `es`. -/
def finalHistory (hasVal : Bool) (es : List EpochData) : History :=
  padHistory (runHistory hasVal 0 es initHistory)

end PlasmodiumSpec
namespace PlasmodiumSpec

/-! ### Helper lemmas on the dict/store model -/

theorem find?_dictSetMap_self (k : String) (v : PyVal) (t : List (String × PyVal))
    (hany : t.any (fun p => p.1 = k) = true) :
    List.find? (fun q => q.1 = k) (t.map (fun p => if p.1 = k then (k, v) else p))
      = some (k, v) := by
  induction t with
  | nil => simp at hany
  | cons a t ih =>
    by_cases ha : a.1 = k
    · rw [List.map_cons, if_pos ha, List.find?_cons_of_pos _ (by simp)]
    · rw [List.map_cons, if_neg ha, List.find?_cons_of_neg _ (by simp [ha])]
      simp only [List.any_cons, Bool.or_eq_true, decide_eq_true_eq] at hany
      exact ih (by rcases hany with h | h; exact absurd h ha; exact h)

theorem find?_dictSetMap_ne (k k2 : String) (v : PyVal) (h : k2 ≠ k)
    (t : List (String × PyVal)) :
    List.find? (fun q => q.1 = k2) (t.map (fun p => if p.1 = k then (k, v) else p))
      = List.find? (fun q => q.1 = k2) t := by
  induction t with
  | nil => rfl
  | cons a t ih =>
    by_cases ha : a.1 = k
    · rw [List.map_cons, if_pos ha,
        List.find?_cons_of_neg _ (by simp [Ne.symm h]),
        List.find?_cons_of_neg _ (by simp [ha, Ne.symm h])]
      exact ih
    · rw [List.map_cons, if_neg ha]
      by_cases hak : a.1 = k2
      · rw [List.find?_cons_of_pos _ (by simp [hak]), List.find?_cons_of_pos _ (by simp [hak])]
      · rw [List.find?_cons_of_neg _ (by simp [hak]), List.find?_cons_of_neg _ (by simp [hak])]
        exact ih

theorem dictGet_dictSet_self (d : Dict) (k : String) (v : PyVal) :
    dictGet (dictSet d k v) k = some v := by
  unfold dictGet dictSet
  by_cases hc : d.any (fun p => p.1 = k) = true
  · rw [if_pos hc, find?_dictSetMap_self k v d hc]
    rfl
  · rw [if_neg hc, List.find?_append]
    have hn : List.find? (fun q => q.1 = k) d = none := by
      apply List.find?_eq_none.mpr
      intro p hp
      simp only [List.any_eq_true, not_exists, not_and] at hc
      simpa using hc p hp
    rw [hn]
    simp [List.find?]

theorem dictGet_dictSet_ne (d : Dict) (k k2 : String) (v : PyVal) (h : k2 ≠ k) :
    dictGet (dictSet d k v) k2 = dictGet d k2 := by
  unfold dictGet dictSet
  by_cases hc : d.any (fun p => p.1 = k) = true
  · rw [if_pos hc, find?_dictSetMap_ne k k2 v h d]
  · rw [if_neg hc, List.find?_append]
    have h2 : List.find? (fun q => q.1 = k2) [(k, v)] = none := by
      simp [List.find?, Ne.symm h]
    rw [h2]
    simp

theorem dictGet_cons_self (kv : String × PyVal) (t : Dict) (k : String) (h : kv.1 = k) :
    dictGet (kv :: t) k = some kv.2 := by
  unfold dictGet
  rw [List.find?_cons_of_pos _ (by simp [h])]
  rfl

theorem dictGet_cons_ne (kv : String × PyVal) (t : Dict) (k : String) (h : kv.1 ≠ k) :
    dictGet (kv :: t) k = dictGet t k := by
  unfold dictGet
  rw [List.find?_cons_of_neg _ (by simp [h])]

theorem dictGet_eq_none (t : Dict) (k : String) (h : ∀ q ∈ t, q.1 ≠ k) :
    dictGet t k = none := by
  unfold dictGet
  rw [List.find?_eq_none.mpr (by intro q hq; simpa using h q hq)]
  rfl

theorem readRef_alloc_old (st : Store) (d : Dict) (x : Nat) (h : x < st.heap.length) :
    readRef (allocDict st d).1 x = readRef st x := by
  simp [readRef, allocDict, List.getD, List.getElem?_append_left h]

theorem readRef_alloc_new (st : Store) (d : Dict) :
    readRef (allocDict st d).1 (allocDict st d).2 = d := by
  simp [readRef, allocDict, List.getD]

theorem readRef_write_self (st : Store) (r : Nat) (d : Dict) (h : r < st.heap.length) :
    readRef (writeRef st r d) r = d := by
  simp [readRef, writeRef, List.getD, List.getElem?_set_self', h]

theorem readRef_write_ne (st : Store) (r x : Nat) (d : Dict) (h : x ≠ r) :
    readRef (writeRef st r d) x = readRef st x := by
  simp [readRef, writeRef, List.getD, List.getElem?_set_ne (Ne.symm h)]

theorem heapLength_write (st : Store) (r : Nat) (d : Dict) :
    (writeRef st r d).heap.length = st.heap.length := by
  simp [writeRef]

theorem foldl_write_length (p : Dict) (r : Nat) (s : Store) :
    (p.foldl (fun s kv => writeRef s r (dictSet (readRef s r) kv.1 kv.2)) s).heap.length
      = s.heap.length := by
  induction p generalizing s with
  | nil => rfl
  | cons kv rest ih => simp [List.foldl_cons, ih, heapLength_write]

theorem foldl_write_readRef_ne (p : Dict) (r x : Nat) (s : Store) (h : x ≠ r) :
    readRef (p.foldl (fun s kv => writeRef s r (dictSet (readRef s r) kv.1 kv.2)) s) x
      = readRef s x := by
  induction p generalizing s with
  | nil => rfl
  | cons kv rest ih => rw [List.foldl_cons, ih, readRef_write_ne _ _ _ _ h]

theorem foldl_write_merge (p : Dict) (r : Nat) (k : String) (s : Store)
    (hr : r < s.heap.length) (hnd : (p.map Prod.fst).Nodup) :
    dictGet (readRef (p.foldl (fun s kv => writeRef s r (dictSet (readRef s r) kv.1 kv.2)) s) r) k
      = match dictGet p k with
        | some v => some v
        | none => dictGet (readRef s r) k := by
  induction p generalizing s with
  | nil => simp [dictGet]
  | cons kv rest ih =>
    rw [List.foldl_cons]
    have hr2 : r < (writeRef s r (dictSet (readRef s r) kv.1 kv.2)).heap.length := by
      rw [heapLength_write]; exact hr
    have hnd2 : (rest.map Prod.fst).Nodup := by
      simpa using hnd.of_cons
    rw [ih _ hr2 hnd2]
    by_cases hk : kv.1 = k
    · have hrest : dictGet rest k = none := by
        apply dictGet_eq_none
        intro q hq
        have hnin : kv.1 ∉ rest.map Prod.fst := by
          simpa using (List.nodup_cons.mp hnd).1
        intro hqk
        apply hnin
        rw [hk, ← hqk]
        exact List.mem_map_of_mem Prod.fst hq
      rw [hrest, dictGet_cons_self kv rest k hk]
      rw [readRef_write_self _ _ _ hr]
      rw [← hk, dictGet_dictSet_self]
    · rw [dictGet_cons_ne kv rest k hk]
      rcases hrest : dictGet rest k with _ | v
      · rw [readRef_write_self _ _ _ hr, dictGet_dictSet_ne _ _ _ _ (Ne.symm hk)]
      · rfl

theorem foldl_write_absent (p : Dict) (r : Nat) (k : String) (s : Store)
    (hr : r < s.heap.length) (hp : dictGet p k = none) :
    dictGet (readRef (p.foldl (fun s kv => writeRef s r (dictSet (readRef s r) kv.1 kv.2)) s) r) k
      = dictGet (readRef s r) k := by
  induction p generalizing s with
  | nil => rfl
  | cons kv rest ih =>
    have hne : kv.1 ≠ k := by
      intro hk
      rw [dictGet_cons_self kv rest k hk] at hp
      cases hp
    have hrest : dictGet rest k = none := by
      rw [dictGet_cons_ne kv rest k hne] at hp
      exact hp
    rw [List.foldl_cons]
    have hr2 : r < (writeRef s r (dictSet (readRef s r) kv.1 kv.2)).heap.length := by
      rw [heapLength_write]; exact hr
    rw [ih _ hr2 hrest, readRef_write_self _ _ _ hr,
      dictGet_dictSet_ne _ _ _ _ (Ne.symm hne)]

/-! ### Helper lemmas on remapping, samplers, the epoch loop and the
history table -/

theorem remapGet_not_mem (mapping : List (Int × Int)) (l : Int)
    (h : ∀ p ∈ mapping, p.1 ≠ l) : remapGet mapping l = l := by
  unfold remapGet
  have hf : mapping.find? (fun p => p.1 = l) = none := by
    apply List.find?_eq_none.mpr
    intro p hp
    simp [h p hp]
  rw [hf]

theorem remapGet_self (mapping : List (Int × Int))
    (hfix : ∀ p ∈ mapping, remapGet mapping p.2 = p.2) (v : Int) :
    remapGet mapping (remapGet mapping v) = remapGet mapping v := by
  rcases hf : mapping.find? (fun p => p.1 = v) with _ | p
  · have hv : remapGet mapping v = v := by unfold remapGet; rw [hf]
    rw [hv]
    exact hv
  · have hv : remapGet mapping v = p.2 := by unfold remapGet; rw [hf]
    rw [hv]
    exact hfix p (List.mem_of_find?_eq_some hf)

theorem map_getD_range (l : List Nat) :
    (List.range l.length).map (fun i => l.getD i 0) = l := by
  induction l with
  | nil => rfl
  | cons a t ih =>
    rw [List.length_cons, List.range_succ_eq_map, List.map_cons, List.map_map]
    have he : ((fun i => (a :: t).getD i 0) ∘ Nat.succ) = (fun i => t.getD i 0) := by
      funext i
      simp [List.getD_cons_succ]
    rw [he, ih, List.getD_cons_zero]

theorem runValEpochs_cons (patience : Nat) (s : AugTrainState) (o : Option Bool)
    (rest : List (Option Bool)) :
    runValEpochs patience s (o :: rest)
      = if patience ≤ (valPhaseStep patience s o).epochsNoImprove
        then [valPhaseStep patience s o]
        else valPhaseStep patience s o :: runValEpochs patience (valPhaseStep patience s o) rest :=
  rfl

theorem valPhaseStep_le (patience : Nat) (s : AugTrainState) (o : Option Bool) :
    (valPhaseStep patience s o).epochsNoImprove ≤ s.epochsNoImprove + 1 := by
  rcases o with _ | b
  · simp [valPhaseStep]
  · simp only [valPhaseStep]
    split
    · simp
    · split <;> simp

theorem runValEpochs_stop (patience : Nat) (s : AugTrainState)
    (os : List (Option Bool)) (hs : s.epochsNoImprove < patience) :
    (∀ x ∈ (runValEpochs patience s os).dropLast, x.epochsNoImprove < patience)
  ∧ ((runValEpochs patience s os).length < os.length →
      ∃ h2 : runValEpochs patience s os ≠ [],
        ((runValEpochs patience s os).getLast h2).epochsNoImprove = patience) := by
  induction os generalizing s with
  | nil => simp [runValEpochs]
  | cons o rest ih =>
    rw [runValEpochs_cons]
    by_cases hstop : patience ≤ (valPhaseStep patience s o).epochsNoImprove
    · rw [if_pos hstop]
      constructor
      · intro x hx
        simp at hx
      · intro _
        refine ⟨by simp, ?_⟩
        have hle := valPhaseStep_le patience s o
        simp only [List.getLast_singleton]
        omega
    · rw [if_neg hstop]
      push_neg at hstop
      obtain ⟨ih1, ih2⟩ := ih (valPhaseStep patience s o) hstop
      constructor
      · intro x hx
        rcases hrun : runValEpochs patience (valPhaseStep patience s o) rest with _ | ⟨y, t⟩
        · rw [hrun] at hx
          simp at hx
        · rw [hrun] at hx
          rw [List.dropLast_cons₂] at hx
          rcases List.mem_cons.mp hx with h | h
          · rw [h]; exact hstop
          · exact ih1 x (by rw [hrun]; exact h)
      · intro hlen
        simp only [List.length_cons] at hlen
        have hlen2 : (runValEpochs patience (valPhaseStep patience s o) rest).length
            < rest.length := by omega
        obtain ⟨hne, hval⟩ := ih2 hlen2
        refine ⟨by simp, ?_⟩
        rw [List.getLast_cons hne]
        exact hval

end PlasmodiumSpec
namespace PlasmodiumSpec

theorem runHistory_cons (hasVal : Bool) (i : Nat) (e : EpochData)
    (rest : List EpochData) (h : History) :
    runHistory hasVal i (e :: rest) h
      = runHistory hasVal (i + 1) rest (recordEpoch hasVal i e h) :=
  rfl

theorem recordEpoch_lengths (hasVal : Bool) (i : Nat) (e : EpochData) (h : History) :
    (recordEpoch hasVal i e h).epochCol.length = h.epochCol.length + 1
  ∧ (recordEpoch hasVal i e h).trainLoss.length = h.trainLoss.length + 1
  ∧ (recordEpoch hasVal i e h).trainAccMac.length = h.trainAccMac.length + 1
  ∧ (recordEpoch hasVal i e h).trainAccWgt.length = h.trainAccWgt.length + 1
  ∧ (recordEpoch hasVal i e h).lrCol.length = h.lrCol.length + 1
  ∧ (recordEpoch hasVal i e h).valLoss.length
      = h.valLoss.length + (if hasVal then 1 else 0)
  ∧ (recordEpoch hasVal i e h).valAccMac.length
      = h.valAccMac.length + (if hasVal then 1 else 0)
  ∧ (recordEpoch hasVal i e h).valAccWgt.length
      = h.valAccWgt.length + (if hasVal then 1 else 0)
  ∧ (recordEpoch hasVal i e h).valPrecMac.length
      = h.valPrecMac.length + (if hasVal then 1 else 0)
  ∧ (recordEpoch hasVal i e h).valRecMac.length
      = h.valRecMac.length + (if hasVal then 1 else 0)
  ∧ (recordEpoch hasVal i e h).valF1Mac.length
      = h.valF1Mac.length + (if hasVal then 1 else 0)
  ∧ (recordEpoch hasVal i e h).valPrecWgt.length
      = h.valPrecWgt.length + (if hasVal then 1 else 0)
  ∧ (recordEpoch hasVal i e h).valRecWgt.length
      = h.valRecWgt.length + (if hasVal then 1 else 0)
  ∧ (recordEpoch hasVal i e h).valF1Wgt.length
      = h.valF1Wgt.length + (if hasVal then 1 else 0) := by
  rcases e with ⟨lr, tm, vm⟩
  cases hasVal <;>
    rcases tm with _ | ⟨l, am, aw⟩ <;>
      rcases vm with _ | ⟨a1, a2, a3, a4, a5, a6, a7, a8, a9⟩ <;>
        simp [recordEpoch, appendTrainCols, appendValCols]

theorem runHistory_lengths (hasVal : Bool) (es : List EpochData) (i : Nat) (h : History) :
    (runHistory hasVal i es h).epochCol.length = h.epochCol.length + es.length
  ∧ (runHistory hasVal i es h).trainLoss.length = h.trainLoss.length + es.length
  ∧ (runHistory hasVal i es h).trainAccMac.length = h.trainAccMac.length + es.length
  ∧ (runHistory hasVal i es h).trainAccWgt.length = h.trainAccWgt.length + es.length
  ∧ (runHistory hasVal i es h).lrCol.length = h.lrCol.length + es.length
  ∧ (runHistory hasVal i es h).valLoss.length
      = h.valLoss.length + (if hasVal then es.length else 0)
  ∧ (runHistory hasVal i es h).valAccMac.length
      = h.valAccMac.length + (if hasVal then es.length else 0)
  ∧ (runHistory hasVal i es h).valAccWgt.length
      = h.valAccWgt.length + (if hasVal then es.length else 0)
  ∧ (runHistory hasVal i es h).valPrecMac.length
      = h.valPrecMac.length + (if hasVal then es.length else 0)
  ∧ (runHistory hasVal i es h).valRecMac.length
      = h.valRecMac.length + (if hasVal then es.length else 0)
  ∧ (runHistory hasVal i es h).valF1Mac.length
      = h.valF1Mac.length + (if hasVal then es.length else 0)
  ∧ (runHistory hasVal i es h).valPrecWgt.length
      = h.valPrecWgt.length + (if hasVal then es.length else 0)
  ∧ (runHistory hasVal i es h).valRecWgt.length
      = h.valRecWgt.length + (if hasVal then es.length else 0)
  ∧ (runHistory hasVal i es h).valF1Wgt.length
      = h.valF1Wgt.length + (if hasVal then es.length else 0) := by
  induction es generalizing i h with
  | nil =>
    cases hasVal <;> simp [runHistory]
  | cons e rest ih =>
    have hrec := recordEpoch_lengths hasVal i e h
    have hrun := ih (i + 1) (recordEpoch hasVal i e h)
    rw [runHistory_cons]
    obtain ⟨r1, r2, r3, r4, r5, r6, r7, r8, r9, r10, r11, r12, r13, r14⟩ := hrec
    obtain ⟨u1, u2, u3, u4, u5, u6, u7, u8, u9, u10, u11, u12, u13, u14⟩ := hrun
    rcases hasVal with _ | _ <;> simp_all <;> omega

end PlasmodiumSpec
namespace PlasmodiumSpec

/-! ### Claim theorems -/

/-- C1 (counterexample): the claim states that the epoch-scoped loader's
sampler is unshuffled and sequential over the chosen indices, i.e. that
the load order always equals the chosen index list.  The source builds a
`SubsetRandomSampler`, which permutes the chosen indices at load time:
with `N = 4`, `ratio = 1/2`, epoch permutation `[2,3,0,1]` the chosen
subset is `[2,3]`, and the load-time permutation `[1,0]` of `range 2`
yields iteration order `[3,2] ≠ [2,3]`. -/
theorem C1_counterexample_sequential_order :
    (makeEpochTrainLoader ⟨32, 4, true, true, 0⟩ true 4 (1/2) [2,3,0,1]).subsetIndices
      = some [2, 3]
  ∧ List.Perm [1, 0] (List.range 2)
  ∧ subsetRandomSamplerOrder [2, 3] [1, 0] = [3, 2]
  ∧ ([3, 2] ≠ ([2, 3] : List Nat)) := by
  refine ⟨?_, by decide, by decide, by decide⟩
  have hk : numEpochSamples 4 ((1:ℚ)/2) = 2 := by
    unfold numEpochSamples
    norm_num
    rfl
  unfold makeEpochTrainLoader
  rw [if_pos (by norm_num)]
  rw [hk]
  rfl

/-- C1 (amended): for every training run configured with a train-subset
ratio strictly below 1, each epoch draws a fresh subset of
`ceil(ratio * N)` of the `N` training samples — the first
`numEpochSamples` entries of that epoch's fresh `torch.randperm(N)`, a
duplicate-free list of valid indices — and iterates it through an
epoch-scoped loader built with the caller loader's batch size, worker
count, pin-memory, collate and persistent-workers settings and
`shuffle=False`; the loader's `SubsetRandomSampler` yields the chosen
indices in a fresh random load order (a permutation of the chosen
subset), so randomness is applied both at subset selection and at load
order. -/
theorem C1_amended_epoch_subset_loader (orig : LoaderSettings) (origShuffle : Bool)
    (numTotal : Nat) (ratio : ℚ) (randperm : List Nat) (h1 : ratio < 1)
    (hp : randperm.Perm (List.range numTotal)) :
    (makeEpochTrainLoader orig origShuffle numTotal ratio randperm).settings = orig
  ∧ (makeEpochTrainLoader orig origShuffle numTotal ratio randperm).shuffleFlag = false
  ∧ (makeEpochTrainLoader orig origShuffle numTotal ratio randperm).subsetIndices
      = some (randperm.take (numEpochSamples numTotal ratio))
  ∧ (randperm.take (numEpochSamples numTotal ratio)).length = numEpochSamples numTotal ratio
  ∧ (randperm.take (numEpochSamples numTotal ratio)).Nodup
  ∧ (∀ i ∈ randperm.take (numEpochSamples numTotal ratio), i < numTotal)
  ∧ (∀ loadPerm : List Nat,
      loadPerm.Perm (List.range (numEpochSamples numTotal ratio)) →
      (subsetRandomSamplerOrder (randperm.take (numEpochSamples numTotal ratio)) loadPerm).Perm
        (randperm.take (numEpochSamples numTotal ratio))) := by
  have hlen : randperm.length = numTotal := by
    rw [hp.length_eq, List.length_range]
  have hkN : numEpochSamples numTotal ratio ≤ numTotal := by
    unfold numEpochSamples
    have hle : (numTotal : ℚ) * ratio ≤ (numTotal : ℚ) := by
      calc (numTotal : ℚ) * ratio ≤ (numTotal : ℚ) * 1 :=
            mul_le_mul_of_nonneg_left (le_of_lt h1) (by positivity)
        _ = (numTotal : ℚ) := mul_one _
    have hceil : ⌈(numTotal : ℚ) * ratio⌉ ≤ (numTotal : Int) := by
      rw [Int.ceil_le]
      exact_mod_cast hle
    omega
  have htake : (randperm.take (numEpochSamples numTotal ratio)).length
      = numEpochSamples numTotal ratio := by
    rw [List.length_take, hlen]
    omega
  have hnodup : (randperm.take (numEpochSamples numTotal ratio)).Nodup := by
    have hn : randperm.Nodup := hp.nodup_iff.mpr (List.nodup_range numTotal)
    exact hn.sublist (List.take_sublist _ _)
  refine ⟨by simp [makeEpochTrainLoader, h1], by simp [makeEpochTrainLoader, h1],
    by simp [makeEpochTrainLoader, h1], htake, hnodup, ?_, ?_⟩
  · intro i hi
    have hmem : i ∈ randperm := List.take_subset _ _ hi
    have hmem2 : i ∈ List.range numTotal := hp.subset hmem
    exact List.mem_range.mp hmem2
  · intro loadPerm hL
    have hmap := hL.map (fun i => (randperm.take (numEpochSamples numTotal ratio)).getD i 0)
    have hmg := map_getD_range (randperm.take (numEpochSamples numTotal ratio))
    rw [htake] at hmg
    rw [hmg] at hmap
    exact hmap

/-- C1 (witness): the amended theorem applied at a concrete loader,
`N = 4`, `ratio = 1/2` and epoch permutation `[2,3,0,1]`. -/
theorem C1_witness :
    (((1:ℚ)/2 < 1) ∧ List.Perm [2,3,0,1] (List.range 4))
  ∧ ((makeEpochTrainLoader ⟨2, 0, false, false, 0⟩ true 4 ((1:ℚ)/2) [2,3,0,1]).settings
        = ⟨2, 0, false, false, 0⟩
  ∧ (makeEpochTrainLoader ⟨2, 0, false, false, 0⟩ true 4 ((1:ℚ)/2) [2,3,0,1]).shuffleFlag = false
  ∧ (makeEpochTrainLoader ⟨2, 0, false, false, 0⟩ true 4 ((1:ℚ)/2) [2,3,0,1]).subsetIndices
      = some (List.take (numEpochSamples 4 ((1:ℚ)/2)) [2,3,0,1])
  ∧ (List.take (numEpochSamples 4 ((1:ℚ)/2)) [2,3,0,1]).length = numEpochSamples 4 ((1:ℚ)/2)
  ∧ (List.take (numEpochSamples 4 ((1:ℚ)/2)) [2,3,0,1]).Nodup
  ∧ (∀ i ∈ List.take (numEpochSamples 4 ((1:ℚ)/2)) [2,3,0,1], i < 4)
  ∧ (∀ loadPerm : List Nat,
      loadPerm.Perm (List.range (numEpochSamples 4 ((1:ℚ)/2))) →
      (subsetRandomSamplerOrder (List.take (numEpochSamples 4 ((1:ℚ)/2)) [2,3,0,1]) loadPerm).Perm
        (List.take (numEpochSamples 4 ((1:ℚ)/2)) [2,3,0,1]))) :=
  ⟨⟨by norm_num, by decide⟩,
    C1_amended_epoch_subset_loader ⟨2, 0, false, false, 0⟩ true 4 ((1:ℚ)/2) [2,3,0,1]
      (by norm_num) (by decide)⟩

/-- C2 (counterexample): the claim states the augmenter's enabled flag
is set to `False` exactly once per run.  With `patience = 6` and
validation outcomes non-improve, improve, non-improve, the counter hits
`patience - 5 = 1` in two separate no-improvement streaks, so the flag
is written to `False` twice (`disableEvents = 2 ≠ 1`). -/
theorem C2_counterexample_double_disable :
    ((runValEpochs 6 ⟨0, true, 0⟩ [some false, some true, some false]).map
        AugTrainState.disableEvents).getLast? = some 2
  ∧ (2 : Nat) ≠ 1 := by
  refine ⟨?_, by decide⟩
  decide

/-- C2 (amended): with no-improvement threshold `patience ≥ 1` and any
sequence of per-epoch validation outcomes, the epoch loop stops early
exactly when the no-improvement counter reaches `patience` and never
before (every non-final state of the trace has counter `< patience`, and
when the trace is cut short its last state has counter `= patience`);
the augmenter's flag is written to `False` exactly at the non-improving
steps whose incremented counter equals `patience - 5` — at most once per
no-improvement streak but possibly more than once per run — and is set
back to `True` (with the counter reset to 0) at the very next
improvement. -/
theorem C2_amended_early_stop_augmenter (patience : Nat) (s0 : AugTrainState)
    (os : List (Option Bool)) (hp : 1 ≤ patience) (h0 : s0.epochsNoImprove = 0) :
    (∀ x ∈ (runValEpochs patience s0 os).dropLast, x.epochsNoImprove < patience)
  ∧ ((runValEpochs patience s0 os).length < os.length →
      ∃ h2 : runValEpochs patience s0 os ≠ [],
        ((runValEpochs patience s0 os).getLast h2).epochsNoImprove = patience)
  ∧ (∀ s : AugTrainState, valPhaseStep patience s (some true)
      = { epochsNoImprove := 0, mixupEnabled := true, disableEvents := s.disableEvents })
  ∧ (∀ s : AugTrainState, (valPhaseStep patience s (some false)).disableEvents
      = s.disableEvents
        + (if ((s.epochsNoImprove + 1 : Nat) : Int) = (patience : Int) - 5 then 1 else 0))
  ∧ (∀ s : AugTrainState, (valPhaseStep patience s (some false)).mixupEnabled
      = (if ((s.epochsNoImprove + 1 : Nat) : Int) = (patience : Int) - 5
         then false else s.mixupEnabled)) := by
  obtain ⟨h1, h2⟩ := runValEpochs_stop patience s0 os (by omega)
  refine ⟨h1, h2, ?_, ?_, ?_⟩
  · intro s
    simp [valPhaseStep]
  · intro s
    simp only [valPhaseStep, Bool.false_eq_true, if_false]
    split <;> simp
  · intro s
    simp only [valPhaseStep, Bool.false_eq_true, if_false]
    split <;> simp

/-- C2 (witness): the amended theorem applied at `patience = 6`, the
initial state and a one-epoch improving run. -/
theorem C2_witness :
    (1 ≤ 6 ∧ (⟨0, true, 0⟩ : AugTrainState).epochsNoImprove = 0)
  ∧ ((∀ x ∈ (runValEpochs 6 ⟨0, true, 0⟩ [some true]).dropLast, x.epochsNoImprove < 6)
  ∧ ((runValEpochs 6 ⟨0, true, 0⟩ [some true]).length < [some true].length →
      ∃ h2 : runValEpochs 6 ⟨0, true, 0⟩ [some true] ≠ [],
        ((runValEpochs 6 ⟨0, true, 0⟩ [some true]).getLast h2).epochsNoImprove = 6)
  ∧ (∀ s : AugTrainState, valPhaseStep 6 s (some true)
      = { epochsNoImprove := 0, mixupEnabled := true, disableEvents := s.disableEvents })
  ∧ (∀ s : AugTrainState, (valPhaseStep 6 s (some false)).disableEvents
      = s.disableEvents
        + (if ((s.epochsNoImprove + 1 : Nat) : Int) = ((6 : Nat) : Int) - 5 then 1 else 0))
  ∧ (∀ s : AugTrainState, (valPhaseStep 6 s (some false)).mixupEnabled
      = (if ((s.epochsNoImprove + 1 : Nat) : Int) = ((6 : Nat) : Int) - 5
         then false else s.mixupEnabled))) :=
  ⟨⟨by decide, by decide⟩,
    C2_amended_early_stop_augmenter 6 ⟨0, true, 0⟩ [some true] (by decide) (by decide)⟩

/-- C3: a batch whose loss is non-finite leaves `running_loss`,
`num_processed_samples`, `batch_count` and the optimizer-step count
unchanged and increments only the NaN/Inf counter; the rest of the phase
then proceeds from that state exactly as if the batch had not occurred;
and the phase loop has no abort path — for every batch list and starting
state (in particular one whose counter already exceeds the tolerance of
`maxNanInfTolerance = 5`), every non-empty finite-loss batch is
processed. -/
theorem C3_nan_batch_guard (isTrain : Bool) (s : PhaseStats) (b : Batch) (bs : List Batch)
    (he : b.emptyData = false) (hf : b.lossFinite = false) :
    processBatch isTrain s b = { s with nanInfCounter := s.nanInfCounter + 1 }
  ∧ runPhase isTrain s (b :: bs)
      = runPhase isTrain { s with nanInfCounter := s.nanInfCounter + 1 } bs
  ∧ (∀ (cs : List Batch) (t : PhaseStats),
      (runPhase isTrain t cs).batchCount = t.batchCount + (cs.filter isValidBatch).length)
  ∧ (∀ (cs : List Batch) (t : PhaseStats), maxNanInfTolerance < t.nanInfCounter →
      (runPhase isTrain t cs).batchCount = t.batchCount + (cs.filter isValidBatch).length) := by
  have hb : processBatch isTrain s b = { s with nanInfCounter := s.nanInfCounter + 1 } := by
    unfold processBatch
    rw [if_neg (by simp [he]), if_pos hf]
  have hcount : ∀ (cs : List Batch) (t : PhaseStats),
      (runPhase isTrain t cs).batchCount = t.batchCount + (cs.filter isValidBatch).length := by
    intro cs
    induction cs with
    | nil => intro t; simp [runPhase]
    | cons c ct ih =>
      intro t
      simp only [runPhase] at ih ⊢
      rw [List.foldl_cons]
      by_cases hce : c.emptyData = true
      · have hstep : processBatch isTrain t c = t := by
          unfold processBatch
          rw [if_pos hce]
        rw [hstep]
        have hfil : (c :: ct).filter isValidBatch = ct.filter isValidBatch := by
          rw [List.filter_cons]
          simp [isValidBatch, hce]
        rw [hfil]
        exact ih t
      · by_cases hcf : c.lossFinite = false
        · have hstep : processBatch isTrain t c
              = { t with nanInfCounter := t.nanInfCounter + 1 } := by
            unfold processBatch
            rw [if_neg hce, if_pos hcf]
          rw [hstep]
          have hfil : (c :: ct).filter isValidBatch = ct.filter isValidBatch := by
            rw [List.filter_cons]
            simp [isValidBatch, hcf]
          rw [hfil]
          exact ih _
        · have hstep : processBatch isTrain t c
              = { runningLoss := t.runningLoss + c.lossVal * (c.size : ℚ),
                  numProcessedSamples := t.numProcessedSamples + c.size,
                  batchCount := t.batchCount + 1,
                  nanInfCounter := t.nanInfCounter,
                  optimizerSteps := t.optimizerSteps + (if isTrain then 1 else 0) } := by
            unfold processBatch
            rw [if_neg hce, if_neg (by simp [hcf])]
          rw [hstep]
          have hfil : (c :: ct).filter isValidBatch
              = c :: ct.filter isValidBatch := by
            rw [List.filter_cons]
            have hvb : isValidBatch c = true := by
              simp only [isValidBatch, Bool.and_eq_true, Bool.not_eq_true']
              exact ⟨by simpa using hce, by simpa using hcf⟩
            simp [hvb]
          rw [hfil]
          rw [ih _]
          simp [List.length_cons]
          omega
  refine ⟨hb, ?_, hcount, fun cs t _ => hcount cs t⟩
  show (b :: bs).foldl (processBatch isTrain) s = _
  rw [List.foldl_cons, hb]
  rfl

/-- C3 (witness): the theorem applied to a concrete non-finite batch of
size 8 followed by a normal batch. -/
theorem C3_witness :
    ((⟨false, 8, false, 0⟩ : Batch).emptyData = false
      ∧ (⟨false, 8, false, 0⟩ : Batch).lossFinite = false)
  ∧ (processBatch true ⟨10, 32, 4, 0, 4⟩ ⟨false, 8, false, 0⟩
      = { (⟨10, 32, 4, 0, 4⟩ : PhaseStats) with nanInfCounter := 1 }
  ∧ runPhase true ⟨10, 32, 4, 0, 4⟩ (⟨false, 8, false, 0⟩ :: [⟨false, 2, true, 3⟩])
      = runPhase true { (⟨10, 32, 4, 0, 4⟩ : PhaseStats) with nanInfCounter := 1 }
          [⟨false, 2, true, 3⟩]
  ∧ (∀ (cs : List Batch) (t : PhaseStats),
      (runPhase true t cs).batchCount = t.batchCount + (cs.filter isValidBatch).length)
  ∧ (∀ (cs : List Batch) (t : PhaseStats), maxNanInfTolerance < t.nanInfCounter →
      (runPhase true t cs).batchCount = t.batchCount + (cs.filter isValidBatch).length)) :=
  ⟨⟨rfl, rfl⟩,
    C3_nan_batch_guard true ⟨10, 32, 4, 0, 4⟩ ⟨false, 8, false, 0⟩ [⟨false, 2, true, 3⟩] rfl rfl⟩

end PlasmodiumSpec
namespace PlasmodiumSpec

/-- C4 (counterexample): the claim states the label replacement
`mapping.get(label, label)` is idempotent for every mapping.  For the
chained mapping `{0 -> 1, 1 -> 0}` and the single sample `("a", 0)`, one
application gives label 1 and a second application gives label 0 back,
so applying twice differs from applying once. -/
theorem C4_counterexample_chained_remap :
    applyClassRemapping [(0,1),(1,0)] (applyClassRemapping [(0,1),(1,0)] [("a", 0)]) = [("a", 0)]
  ∧ applyClassRemapping [(0,1),(1,0)] [("a", 0)] = [("a", 1)]
  ∧ ([("a", (0:Int))] ≠ [("a", (1:Int))]) := by
  refine ⟨by decide, by decide, by decide⟩

/-- C4 (amended): the class remapping step is idempotent for every
mapping that maps each value of its image to itself (no chained
entries — the situation of a class-merge mapping whose merged targets
are not themselves remapped): applying `mapping.get(label, label)` to
every sample twice yields exactly the sample list (hence also the label
set) of applying it once; and labels absent from the mapping's keys
always pass through unchanged. -/
theorem C4_amended_remap_idempotent (mapping : List (Int × Int))
    (samples : List (String × Int))
    (hfix : ∀ p ∈ mapping, remapGet mapping p.2 = p.2) :
    applyClassRemapping mapping (applyClassRemapping mapping samples)
      = applyClassRemapping mapping samples
  ∧ (∀ l : Int, (∀ p ∈ mapping, p.1 ≠ l) → remapGet mapping l = l) := by
  constructor
  · unfold applyClassRemapping
    rw [List.map_map]
    apply List.map_congr_left
    intro a _
    simp [Function.comp, remapGet_self mapping hfix]
  · intro l hl
    exact remapGet_not_mem mapping l hl

/-- C4 (witness): the amended theorem applied to the mapping `{5 -> 3}`
(whose image value 3 is not a key) and the sample list `[("x", 5)]`. -/
theorem C4_witness :
    (∀ p ∈ [((5:Int), (3:Int))], remapGet [((5:Int), (3:Int))] p.2 = p.2)
  ∧ (applyClassRemapping [((5:Int), (3:Int))]
        (applyClassRemapping [((5:Int), (3:Int))] [("x", (5:Int))])
      = applyClassRemapping [((5:Int), (3:Int))] [("x", (5:Int))]
  ∧ (∀ l : Int, (∀ p ∈ [((5:Int), (3:Int))], p.1 ≠ l)
      → remapGet [((5:Int), (3:Int))] l = l)) :=
  ⟨by decide, C4_amended_remap_idempotent [((5:Int), (3:Int))] [("x", (5:Int))] (by decide)⟩

/-- C5: for the `inverse` method the pre-clamp weight of every class
`c < num_classes` equals `total_samples / count[c]`, where `count[c]` is
the class count with an assumed count of 1 for classes that never occur
and `total_samples` is the sum of those adjusted counts; in particular
for targets `[0,0,0,1]` with `num_classes = 2` the pre-clamp weights are
`[4/3, 4]` and the default clamp to `[0.1, 10]` leaves them unchanged. -/
theorem C5_inverse_weights (targets : List Nat) (n c : Nat) (hc : c < n) :
    (∃ ws, rawWeights "inverse" targets n = Except.ok ws ∧
        ws.getD c 0 = (totalAdjusted targets n : ℚ) / (adjustedCount targets c : ℚ))
  ∧ (targets.count c = 0 → adjustedCount targets c = 1)
  ∧ rawWeights "inverse" [0,0,0,1] 2 = Except.ok [4/3, 4]
  ∧ computeClassWeights (fun q => q) "inverse" [0,0,0,1] 2 false (1/10) 10
      = Except.ok [4/3, 4] := by
  refine ⟨⟨_, rfl, ?_⟩, ?_, ?_, ?_⟩
  · simp [List.getD_eq_getElem?_getD, List.getElem?_map, List.getElem?_range hc]
  · intro h; simp [adjustedCount, h]
  · norm_num [rawWeights, totalAdjusted, adjustedCount, List.range_succ]
  · norm_num [computeClassWeights, rawWeights, totalAdjusted, adjustedCount, clampQ,
      List.range_succ]

/-- C5 (witness): the theorem applied at targets `[0,0,0,1]`,
`num_classes = 2`, class 0. -/
theorem C5_witness :
    (0 < 2)
  ∧ ((∃ ws, rawWeights "inverse" [0,0,0,1] 2 = Except.ok ws ∧
        ws.getD 0 0 = (totalAdjusted [0,0,0,1] 2 : ℚ) / (adjustedCount [0,0,0,1] 0 : ℚ))
  ∧ ([0,0,0,1].count 0 = 0 → adjustedCount [0,0,0,1] 0 = 1)
  ∧ rawWeights "inverse" [0,0,0,1] 2 = Except.ok [4/3, 4]
  ∧ computeClassWeights (fun q => q) "inverse" [0,0,0,1] 2 false (1/10) 10
      = Except.ok [4/3, 4]) :=
  ⟨by decide, C5_inverse_weights [0,0,0,1] 2 0 (by decide)⟩

/-- C6 (counterexample): the claim quantifies over every
`min_weight`/`max_weight` pair.  With `min_weight = 5 > max_weight = 1`,
`torch.clamp` forces the weight of the single class to `1`, and
`min_weight ≤ w` fails. -/
theorem C6_counterexample_min_above_max :
    computeClassWeights (fun q => q) "inverse" [0] 1 false 5 1 = Except.ok [1]
  ∧ ¬ ((5 : ℚ) ≤ 1) := by
  constructor
  · norm_num [computeClassWeights, rawWeights, totalAdjusted, adjustedCount, clampQ,
      List.range_succ]
  · norm_num

/-- C6 (amended): provided `min_weight ≤ max_weight`, every weight that
`computeClassWeights` returns — for either method, any targets, any
sqrt choice and any sqrt implementation — satisfies
`min_weight ≤ w ≤ max_weight`, the clamp being the last step applied
after the optional elementwise square root. -/
theorem C6_amended_weight_clamp_bounds (sqrtFn : ℚ → ℚ) (method : String)
    (targets : List Nat) (n : Nat) (applySqrt : Bool) (minW maxW : ℚ) (ws : List ℚ)
    (hmm : minW ≤ maxW)
    (hok : computeClassWeights sqrtFn method targets n applySqrt minW maxW = Except.ok ws) :
    ∀ w ∈ ws, minW ≤ w ∧ w ≤ maxW := by
  unfold computeClassWeights at hok
  rcases hr : rawWeights method targets n with e | ws0
  · rw [hr] at hok; cases hok
  · rw [hr] at hok
    simp only [Except.ok.injEq] at hok
    subst hok
    intro w hw
    obtain ⟨x, _, rfl⟩ := List.mem_map.mp hw
    unfold clampQ
    exact ⟨le_min (le_max_right _ _) hmm, min_le_right _ _⟩

/-- C6 (witness): the amended theorem applied to the `balanced` method
on targets `[0,1,1]` with the default clamp `[0.1, 10]`. -/
theorem C6_witness :
    (((1:ℚ)/10 ≤ 10)
      ∧ computeClassWeights (fun q => q) "balanced" [0,1,1] 2 false (1/10) 10
          = Except.ok [3/2, 3/4])
  ∧ (∀ w ∈ [(3:ℚ)/2, 3/4], (1:ℚ)/10 ≤ w ∧ w ≤ 10) :=
  ⟨⟨by norm_num,
      by
        have h1 : ("balanced" = "inverse") = False := by simp
        norm_num [computeClassWeights, rawWeights, totalAdjusted, adjustedCount, clampQ,
          List.range_succ, h1]⟩,
    C6_amended_weight_clamp_bounds (fun q => q) "balanced" [0,1,1] 2 false (1/10) 10
      [3/2, 3/4] (by norm_num)
      (by
        have h1 : ("balanced" = "inverse") = False := by simp
        norm_num [computeClassWeights, rawWeights, totalAdjusted, adjustedCount, clampQ,
          List.range_succ, h1])⟩

/-- C7 (code bug): with exponent `tau = 2`, a cached per-layer threshold
of `1/8` and a classifier of one neuron with single weight `1/2` (so its
L2 norm is `1/2` and `norm^tau = 1/4` exceeds the threshold), the source
rescales by `threshold / (norm^tau)^tau = 2` — increasing the neuron to
`[1]` — and a second call with the threshold cache unchanged rescales
again to `[1/8]`: the projection is not idempotent and not one-sided.
Under the spec's stated factor `threshold / norm^tau` the same input is
rescaled once to `[1/4]` and a second application leaves it unchanged,
confirming the claim describes the intended behaviour and the extra
`** self.tau` on line 46 of `regularizers.py` is the deviation. -/
theorem C7_maxnorm_double_tau_bug :
    maxNormPGD absSumNorm ⟨1/10, 2, [1/8]⟩ [[(1:ℚ)/2]]
      = (⟨1/10, 2, [1/8]⟩, [[(1:ℚ)]])
  ∧ maxNormPGD absSumNorm ⟨1/10, 2, [1/8]⟩ [[(1:ℚ)]]
      = (⟨1/10, 2, [1/8]⟩, [[(1:ℚ)/8]])
  ∧ ([[(1:ℚ)]] ≠ [[(1:ℚ)/8]])
  ∧ specPgdNeuron absSumNorm 2 (1/8) [(1:ℚ)/2] = [(1:ℚ)/4]
  ∧ specPgdNeuron absSumNorm 2 (1/8) [(1:ℚ)/4] = [(1:ℚ)/4] := by
  have habs2 : absSumNorm [(1:ℚ)/2] = 1/2 := by
    norm_num [absSumNorm]
  have habs1 : absSumNorm [(1:ℚ)] = 1 := by
    norm_num [absSumNorm]
  have habs4 : absSumNorm [(1:ℚ)/4] = 1/4 := by
    norm_num [absSumNorm]
  refine ⟨?_, ?_, ?_, ?_, ?_⟩
  · unfold maxNormPGD pgdLayer pgdNeuron
    norm_num [habs2]
  · unfold maxNormPGD pgdLayer pgdNeuron
    norm_num [habs1]
  · intro h
    have h1 := List.head_eq_of_cons_eq h
    have h2 := List.head_eq_of_cons_eq h1
    norm_num at h2
  · unfold specPgdNeuron
    norm_num [habs2]
  · unfold specPgdNeuron
    norm_num [habs4]

end PlasmodiumSpec
namespace PlasmodiumSpec

/-- C8: at the end of every run consisting of the executed epochs `es`
(a run cut short by early stopping simply executes fewer epochs, and
`hasVal = false` is a run whose validation phase was skipped in every
epoch), every one of the fourteen history columns of the padded table
has exactly `es.length` entries; the padding operator only appends
(every column keeps its recorded entries as a prefix, with the
column-specific NaN or `-1` padding value at the end, so no column is
ever truncated); and when validation was skipped the `val_loss` column
is exactly `es.length` NaN cells. -/
theorem C8_history_column_lengths (hasVal : Bool) (es : List EpochData) :
  (  (finalHistory hasVal es).epochCol.length = es.length
  ∧ (finalHistory hasVal es).trainLoss.length = es.length
  ∧ (finalHistory hasVal es).trainAccMac.length = es.length
  ∧ (finalHistory hasVal es).trainAccWgt.length = es.length
  ∧ (finalHistory hasVal es).lrCol.length = es.length
  ∧ (finalHistory hasVal es).valLoss.length = es.length
  ∧ (finalHistory hasVal es).valAccMac.length = es.length
  ∧ (finalHistory hasVal es).valAccWgt.length = es.length
  ∧ (finalHistory hasVal es).valPrecMac.length = es.length
  ∧ (finalHistory hasVal es).valRecMac.length = es.length
  ∧ (finalHistory hasVal es).valF1Mac.length = es.length
  ∧ (finalHistory hasVal es).valPrecWgt.length = es.length
  ∧ (finalHistory hasVal es).valRecWgt.length = es.length
  ∧ (finalHistory hasVal es).valF1Wgt.length = es.length)
  ∧ (∀ (k : String) (n : Nat) (v : List Cell), v <+: padColumn k n v)
  ∧ (hasVal = false →
      (finalHistory hasVal es).valLoss = List.replicate es.length Cell.nanCell) := by
  have hpre : ∀ (k : String) (n : Nat) (v : List Cell), v <+: padColumn k n v :=
    fun k n v => ⟨_, rfl⟩
  have hpadlen : ∀ (k : String) (n : Nat) (v : List Cell),
      (padColumn k n v).length = v.length + (n - v.length) := by
    intro k n v
    simp [padColumn]
  obtain ⟨l1, l2, l3, l4, l5, l6, l7, l8, l9, l10, l11, l12, l13, l14⟩ :=
    runHistory_lengths hasVal es 0 initHistory
  simp only [show initHistory.epochCol.length = 0 from rfl, show initHistory.trainLoss.length = 0 from rfl, show initHistory.trainAccMac.length = 0 from rfl, show initHistory.trainAccWgt.length = 0 from rfl, show initHistory.lrCol.length = 0 from rfl, show initHistory.valLoss.length = 0 from rfl, show initHistory.valAccMac.length = 0 from rfl, show initHistory.valAccWgt.length = 0 from rfl, show initHistory.valPrecMac.length = 0 from rfl, show initHistory.valRecMac.length = 0 from rfl, show initHistory.valF1Mac.length = 0 from rfl, show initHistory.valPrecWgt.length = 0 from rfl, show initHistory.valRecWgt.length = 0 from rfl, show initHistory.valF1Wgt.length = 0 from rfl, Nat.zero_add] at l1 l2 l3 l4 l5 l6 l7 l8 l9 l10 l11 l12 l13 l14
  have hvle : (if hasVal = true then es.length else 0) ≤ es.length := by
    rcases hasVal with _ | _ <;> simp
  have hmax : maxColLen (runHistory hasVal 0 es initHistory) = es.length := by
    unfold maxColLen
    rw [l1, l2, l3, l4, l5, l6, l7, l8, l9, l10, l11, l12, l13, l14]
    omega
  have hvnil : hasVal = false → (runHistory hasVal 0 es initHistory).valLoss = [] := by
    intro hv
    subst hv
    simp only [Bool.false_eq_true, if_false] at l6
    exact List.length_eq_zero.mp l6
  refine ⟨⟨?_, ?_, ?_, ?_, ?_, ?_, ?_, ?_, ?_, ?_, ?_, ?_, ?_, ?_⟩, hpre, ?_⟩
  · simp only [finalHistory, padHistory]
    rw [hpadlen, hmax, l1]
    omega
  · simp only [finalHistory, padHistory]
    rw [hpadlen, hmax, l2]
    omega
  · simp only [finalHistory, padHistory]
    rw [hpadlen, hmax, l3]
    omega
  · simp only [finalHistory, padHistory]
    rw [hpadlen, hmax, l4]
    omega
  · simp only [finalHistory, padHistory]
    rw [hpadlen, hmax, l5]
    omega
  · simp only [finalHistory, padHistory]
    rw [hpadlen, hmax, l6]
    omega
  · simp only [finalHistory, padHistory]
    rw [hpadlen, hmax, l7]
    omega
  · simp only [finalHistory, padHistory]
    rw [hpadlen, hmax, l8]
    omega
  · simp only [finalHistory, padHistory]
    rw [hpadlen, hmax, l9]
    omega
  · simp only [finalHistory, padHistory]
    rw [hpadlen, hmax, l10]
    omega
  · simp only [finalHistory, padHistory]
    rw [hpadlen, hmax, l11]
    omega
  · simp only [finalHistory, padHistory]
    rw [hpadlen, hmax, l12]
    omega
  · simp only [finalHistory, padHistory]
    rw [hpadlen, hmax, l13]
    omega
  · simp only [finalHistory, padHistory]
    rw [hpadlen, hmax, l14]
    omega
  · intro hv
    simp only [finalHistory, padHistory]
    rw [hvnil hv, hmax]
    have hnan : padCellFor "val_loss" = Cell.nanCell := by
      rw [padCellFor, if_pos (by decide)]
    simp [padColumn, hnan]

/-- C8 (witness): the theorem applied to a one-epoch run with no
validation loader. -/
theorem C8_witness :
  ((finalHistory false [⟨1, none, none⟩]).epochCol.length = 1
  ∧ (finalHistory false [⟨1, none, none⟩]).trainLoss.length = 1
  ∧ (finalHistory false [⟨1, none, none⟩]).trainAccMac.length = 1
  ∧ (finalHistory false [⟨1, none, none⟩]).trainAccWgt.length = 1
  ∧ (finalHistory false [⟨1, none, none⟩]).lrCol.length = 1
  ∧ (finalHistory false [⟨1, none, none⟩]).valLoss.length = 1
  ∧ (finalHistory false [⟨1, none, none⟩]).valAccMac.length = 1
  ∧ (finalHistory false [⟨1, none, none⟩]).valAccWgt.length = 1
  ∧ (finalHistory false [⟨1, none, none⟩]).valPrecMac.length = 1
  ∧ (finalHistory false [⟨1, none, none⟩]).valRecMac.length = 1
  ∧ (finalHistory false [⟨1, none, none⟩]).valF1Mac.length = 1
  ∧ (finalHistory false [⟨1, none, none⟩]).valPrecWgt.length = 1
  ∧ (finalHistory false [⟨1, none, none⟩]).valRecWgt.length = 1
  ∧ (finalHistory false [⟨1, none, none⟩]).valF1Wgt.length = 1)
  ∧ (∀ (k : String) (n : Nat) (v : List Cell), v <+: padColumn k n v)
  ∧ (false = false →
      (finalHistory false [⟨1, none, none⟩]).valLoss = List.replicate 1 Cell.nanCell) := by
  have h := C8_history_column_lengths false [⟨1, none, none⟩]
  simpa using h

end PlasmodiumSpec
namespace PlasmodiumSpec

/-- C9: `get_effective_sampler_config` never mutates its main
configuration: after the call the dict object behind `mainRef` is
unchanged; the returned dict is a different object from the main config;
with no phase override the returned object is value-equal to the main
config; and with a phase override (a dict, so its keys are distinct) the
returned dict is the shallow merge — lookups hit the override's
top-level keys first and fall back to the main config. -/
theorem C9_effective_config_frame (st : Store) (mainRef : Nat) (phase : Option Dict)
    (hm : mainRef < st.heap.length)
    (hnd : ∀ p, phase = some p → (p.map Prod.fst).Nodup) :
    readRef (getEffectiveSamplerConfig st mainRef phase).1 mainRef = readRef st mainRef
  ∧ (getEffectiveSamplerConfig st mainRef phase).2 ≠ mainRef
  ∧ (phase = none →
      readRef (getEffectiveSamplerConfig st mainRef phase).1
        (getEffectiveSamplerConfig st mainRef phase).2 = readRef st mainRef)
  ∧ (∀ p, phase = some p → ∀ k,
      dictGet (readRef (getEffectiveSamplerConfig st mainRef phase).1
        (getEffectiveSamplerConfig st mainRef phase).2) k
        = match dictGet p k with
          | some v => some v
          | none => dictGet (readRef st mainRef) k) := by
  have hne : st.heap.length ≠ mainRef := Ne.symm (Nat.ne_of_lt hm)
  cases phase with
  | none =>
    refine ⟨?_, ?_, ?_, ?_⟩
    · exact readRef_alloc_old st _ mainRef hm
    · exact hne
    · intro _
      exact readRef_alloc_new st _
    · intro p hp
      cases hp
  | some p =>
    have hr : (allocDict st (readRef st mainRef)).2
        < (allocDict st (readRef st mainRef)).1.heap.length := by
      simp [allocDict]
    refine ⟨?_, ?_, ?_, ?_⟩
    · have hne2 : mainRef ≠ (allocDict st (readRef st mainRef)).2 := by
        simp only [allocDict]
        omega
      show readRef (p.foldl _ (allocDict st (readRef st mainRef)).1) mainRef = _
      rw [foldl_write_readRef_ne _ _ _ _ hne2]
      exact readRef_alloc_old st _ mainRef hm
    · exact hne
    · intro hp
      cases hp
    · intro q hq k
      cases hq
      show dictGet (readRef (p.foldl _ (allocDict st (readRef st mainRef)).1)
        (allocDict st (readRef st mainRef)).2) k = _
      rw [foldl_write_merge p _ k _ hr (hnd p rfl), readRef_alloc_new st _]

/-- C9 (witness): the theorem applied to a one-object heap holding the
main config `{"a": 1}` and the phase override `{"b": 2}`. -/
theorem C9_witness :
    ((0 < (⟨[[("a", PyVal.intV 1)]]⟩ : Store).heap.length)
      ∧ (∀ p, (some [("b", PyVal.intV 2)] : Option Dict) = some p → (p.map Prod.fst).Nodup))
  ∧ (readRef (getEffectiveSamplerConfig ⟨[[("a", PyVal.intV 1)]]⟩ 0
        (some [("b", PyVal.intV 2)])).1 0 = readRef ⟨[[("a", PyVal.intV 1)]]⟩ 0
  ∧ (getEffectiveSamplerConfig ⟨[[("a", PyVal.intV 1)]]⟩ 0 (some [("b", PyVal.intV 2)])).2 ≠ 0
  ∧ ((some [("b", PyVal.intV 2)] : Option Dict) = none →
      readRef (getEffectiveSamplerConfig ⟨[[("a", PyVal.intV 1)]]⟩ 0
        (some [("b", PyVal.intV 2)])).1
        (getEffectiveSamplerConfig ⟨[[("a", PyVal.intV 1)]]⟩ 0 (some [("b", PyVal.intV 2)])).2
      = readRef ⟨[[("a", PyVal.intV 1)]]⟩ 0)
  ∧ (∀ p, (some [("b", PyVal.intV 2)] : Option Dict) = some p → ∀ k,
      dictGet (readRef (getEffectiveSamplerConfig ⟨[[("a", PyVal.intV 1)]]⟩ 0
        (some [("b", PyVal.intV 2)])).1
        (getEffectiveSamplerConfig ⟨[[("a", PyVal.intV 1)]]⟩ 0 (some [("b", PyVal.intV 2)])).2) k
        = match dictGet p k with
          | some v => some v
          | none => dictGet (readRef ⟨[[("a", PyVal.intV 1)]]⟩ 0) k)) :=
  ⟨⟨by decide, by intro p hp; cases hp; decide⟩,
    C9_effective_config_frame ⟨[[("a", PyVal.intV 1)]]⟩ 0 (some [("b", PyVal.intV 2)])
      (by decide) (by intro p hp; cases hp; decide)⟩

/-- C10: the copy `get_effective_sampler_config` returns is shallow —
for every key of the main config whose value is a mutable object (a heap
reference `r`) and is not overridden by the phase config, the returned
config holds the very same reference, the main config still holds it
too, and writing a new dict through that reference is seen when
dereferencing either config's key. -/
theorem C10_shallow_copy_aliasing (st : Store) (mainRef r : Nat) (phase : Option Dict)
    (k : String) (hm : mainRef < st.heap.length)
    (hk : dictGet (readRef st mainRef) k = some (PyVal.refV r))
    (hov : ∀ p, phase = some p → dictGet p k = none) :
    dictGet (readRef (getEffectiveSamplerConfig st mainRef phase).1
      (getEffectiveSamplerConfig st mainRef phase).2) k = some (PyVal.refV r)
  ∧ dictGet (readRef (getEffectiveSamplerConfig st mainRef phase).1 mainRef) k
      = some (PyVal.refV r)
  ∧ (∀ d2 : Dict, r < st.heap.length →
      readRef (writeRef (getEffectiveSamplerConfig st mainRef phase).1 r d2) r = d2) := by
  have hne : st.heap.length ≠ mainRef := Ne.symm (Nat.ne_of_lt hm)
  have hlen : (getEffectiveSamplerConfig st mainRef phase).1.heap.length
      = st.heap.length + 1 := by
    cases phase with
    | none => simp [getEffectiveSamplerConfig, allocDict]
    | some p =>
      show (p.foldl _ (allocDict st (readRef st mainRef)).1).heap.length = _
      rw [foldl_write_length]
      simp [allocDict]
  refine ⟨?_, ?_, ?_⟩
  · cases phase with
    | none =>
      rw [show (getEffectiveSamplerConfig st mainRef none)
          = allocDict st (readRef st mainRef) from rfl, readRef_alloc_new st _]
      exact hk
    | some p =>
      have hr : (allocDict st (readRef st mainRef)).2
          < (allocDict st (readRef st mainRef)).1.heap.length := by
        simp [allocDict]
      show dictGet (readRef (p.foldl _ (allocDict st (readRef st mainRef)).1)
        (allocDict st (readRef st mainRef)).2) k = _
      rw [foldl_write_absent p _ k _ hr (hov p rfl), readRef_alloc_new st _]
      exact hk
  · cases phase with
    | none =>
      rw [show (getEffectiveSamplerConfig st mainRef none)
          = allocDict st (readRef st mainRef) from rfl,
        readRef_alloc_old st _ mainRef hm]
      exact hk
    | some p =>
      have hne2 : mainRef ≠ (allocDict st (readRef st mainRef)).2 := by
        simp only [allocDict]
        omega
      show dictGet (readRef (p.foldl _ (allocDict st (readRef st mainRef)).1) mainRef) k = _
      rw [foldl_write_readRef_ne _ _ _ _ hne2, readRef_alloc_old st _ mainRef hm]
      exact hk
  · intro d2 hrlt
    apply readRef_write_self
    rw [hlen]
    exact Nat.lt_succ_of_lt hrlt

/-- C10 (witness): the theorem applied to a heap with a main config
whose key `nested` holds a reference to a second dict object, and no
phase override. -/
theorem C10_witness :
    ((0 < (⟨[[("nested", PyVal.refV 1)], []]⟩ : Store).heap.length)
      ∧ dictGet (readRef ⟨[[("nested", PyVal.refV 1)], []]⟩ 0) "nested"
          = some (PyVal.refV 1)
      ∧ (∀ p, (none : Option Dict) = some p → dictGet p "nested" = none))
  ∧ (dictGet (readRef (getEffectiveSamplerConfig ⟨[[("nested", PyVal.refV 1)], []]⟩ 0 none).1
      (getEffectiveSamplerConfig ⟨[[("nested", PyVal.refV 1)], []]⟩ 0 none).2) "nested"
        = some (PyVal.refV 1)
  ∧ dictGet (readRef (getEffectiveSamplerConfig ⟨[[("nested", PyVal.refV 1)], []]⟩ 0 none).1 0)
      "nested" = some (PyVal.refV 1)
  ∧ (∀ d2 : Dict, 1 < (⟨[[("nested", PyVal.refV 1)], []]⟩ : Store).heap.length →
      readRef (writeRef (getEffectiveSamplerConfig ⟨[[("nested", PyVal.refV 1)], []]⟩ 0 none).1
        1 d2) 1 = d2)) :=
  ⟨⟨by decide, by decide, by intro p hp; cases hp⟩,
    C10_shallow_copy_aliasing ⟨[[("nested", PyVal.refV 1)], []]⟩ 0 1 none "nested"
      (by decide) (by decide) (by intro p hp; cases hp)⟩

end PlasmodiumSpec
